import Mathlib

/-!
# go-redis-bucket: a shallow embedding in Lean 4

A verification development for the `go-redis-bucket` leaky-bucket rate
limiter.  The Go sources are embedded shallowly:

* `float64` values are idealized as exact rationals (`ℚ`); the IEEE
  special values `+Inf`, `-Inf` and `NaN`, which this program can produce
  only by resolving a zero-window `Capacity` (a finite minimum divided by
  `0.0` seconds), are modelled explicitly by the `F64` type at the
  resolution/validation boundary;
* `time.Duration` (an `int64` count of nanoseconds) is idealized through
  `Duration.Seconds`, which is exact in `ℚ`; the `Result.Wait` field is kept
  in rational seconds;
* `strconv.ParseFloat` (Go standard library, not part of this repository) is
  abstracted as a parameter `parse : String → Option ℚ`;
* Go code returning `(T, error)` becomes `Except String T`; a Go runtime
  panic (out-of-range slice index) is a distinct `TOut.panicked` outcome;
* the dynamic `any` values travelling through the Redis `Eval` interface
  become the inductive `RVal`.

The repository ships two parallel implementations of the limiter facade: a
functional-options constructor `New` (package `limiter`) and a config-struct
constructor `NewLimiter`; they are embedded in namespaces `F` and `S`
respectively.  The atomic Lua evaluator (`script/bucket.min.lua`) is embedded
in the Go binary by reference only and its body is not part of the reviewed
sources; it is modelled from the specification (§4.4) in the `Evaluator`
section below.
-/

namespace GoRedisBucket

/-! ## Numeric model -/

/-- `math.Pow` (Go standard library) idealized on the exactly-representable
fragment of the rationals: for an integer exponent `y` the IEEE ideal value
`x ^ y` is rational and is returned exactly; a non-integer exponent produces
an irrational value in general, which the rational idealization cannot
represent, and is mapped to `0`. -/
def mathPow (x y : ℚ) : ℚ :=
  if y.den = 1 then x ^ y.num else 0

/-- `time.Duration.Seconds`: a duration is an `int64` count of nanoseconds;
`Seconds` divides it by `1e9`, which is exact in `ℚ`. -/
def seconds (d : ℤ) : ℚ := (d : ℚ) / 1000000000

/-! ## The IEEE fragment reached by resolved flows

Every `float64` this program computes is idealized as an exact rational,
except the flow resolved from a zero-window `Capacity`: `Min / 0.0` is
`+Inf` for a positive minimum, `-Inf` for a negative one, and `NaN` for a
zero minimum.  These values decide construction-time validation, so they
are modelled explicitly. -/

/-- A resolved flow value: an exact rational, or one of the IEEE special
values produced by dividing a finite minimum by a zero window. -/
inductive F64 where
  | fin (q : ℚ)
  | pinf
  | ninf
  | nan
deriving DecidableEq, Repr

/-- IEEE division of (idealized) finite values: a finite quotient for a
non-zero divisor; `±Inf`/`NaN` by the sign of the dividend for a zero
divisor.  (A negative-zero divisor cannot arise here: the only zero divisor
in the program is `Seconds()` of a zero window, which is `+0.0`.) -/
def fdiv (a b : ℚ) : F64 :=
  if b = 0 then (if 0 < a then .pinf else if a < 0 then .ninf else .nan)
  else .fin (a / b)

/-- The IEEE comparison `x <= 0`: true for `-Inf` and non-positive finite
values; false for `+Inf` and for `NaN` (every comparison with `NaN` is
false). -/
def F64.le0 : F64 → Bool
  | .fin q => decide (q ≤ 0)
  | .pinf => false
  | .ninf => true
  | .nan => false

/-- The rational projection of a resolved flow, used for the frozen
argument template: the identity on finite values.  The special values lie
outside the rational idealization; they are projected to `0`, which is also
the value `ℚ` assigns to the defining formula (`q / 0 = 0`), so the
projection of the faithful resolution coincides with the ideal formula
everywhere (proven below in `RateF_toRat`). -/
def F64.toRat : F64 → ℚ
  | .fin q => q
  | _ => 0

/-- Sort rank of a resolved flow: `-Inf` below every finite value below
`+Inf`.  Go's `sort.Slice` comparator is inconsistent on `NaN` (every IEEE
comparison involving `NaN` is false) and the resulting order is
unspecified; the model completes it deterministically by ranking `NaN`
last. -/
def F64.rank : F64 → ℕ
  | .ninf => 0
  | .fin _ => 1
  | .pinf => 2
  | .nan => 3

/-- The finite payload of a resolved flow (`0` for the special values);
together with `F64.rank` this gives the model's total sort key. -/
def F64.val : F64 → ℚ
  | .fin q => q
  | _ => 0

/-- The strict sort order on resolved flows: by rank, then by finite value
— on non-`NaN` values this is exactly the IEEE `<`. -/
def F64.ltb (x y : F64) : Bool :=
  decide (x.rank < y.rank) || (decide (x.rank = y.rank) && decide (x.val < y.val))

/-! ## backoff.go: the four built-in backoff factors

In Go each is a named `float64` type with a `Backoff(float64) float64`
method; here each is the corresponding curried function. -/

/-- `Constant`: `func (c Constant) Backoff(value float64) float64 { return float64(c) }` -/
def Constant (c : ℚ) (_value : ℚ) : ℚ := c

/-- `Linear`: `func (l Linear) Backoff(value float64) float64 { return float64(l) * value }` -/
def Linear (l : ℚ) (value : ℚ) : ℚ := l * value

/-- `Power`: `func (p Power) Backoff(value float64) float64 { return math.Pow(value, float64(p)) }` -/
def Power (p : ℚ) (value : ℚ) : ℚ := mathPow value p

/-- `Exponential`: `func (e Exponential) Backoff(value float64) float64 { return math.Pow(float64(e), value) }` -/
def Exponential (e : ℚ) (value : ℚ) : ℚ := mathPow e value

/-! ## Bucket model (buckets source file) -/

/-- `Rate` describes a bucket using raw flow (per second) and burst values. -/
structure Rate where
  Flow : ℚ
  Burst : ℚ
deriving DecidableEq, Repr

/-- `Capacity` describes a bucket using a minimum and maximum over a window.
`Window` is a `time.Duration`, i.e. an integer count of nanoseconds. -/
structure Capacity where
  Window : ℤ
  Min : ℚ
  Max : ℚ
deriving DecidableEq, Repr

/-- `func (r Rate) Rate() (float64, float64) { return r.Flow, r.Burst }` -/
def Rate.Rate (r : Rate) : ℚ × ℚ := (r.Flow, r.Burst)

/-- `func (c Capacity) Rate() (float64, float64) { return c.Min / c.Window.Seconds(), c.Max - c.Min }`
— the resolved metrics with the flow kept as an IEEE value: at a zero
window the flow is `±Inf`/`NaN` by the sign of `Min`; the burst is always
finite. -/
def Capacity.RateF (c : Capacity) : F64 × ℚ :=
  (fdiv c.Min (seconds c.Window), c.Max - c.Min)

/-- The rational projection of `Capacity.RateF`: the ideal value of the
same formula (`flow = Min / Window.Seconds()`, `burst = Max - Min`), exact
whenever `Window ≠ 0`; at a zero window the IEEE flow is non-finite and the
`ℚ` formula gives `Min / 0 = 0` (`RateF_toRat` below proves the two agree
as projections everywhere). -/
def Capacity.Rate (c : Capacity) : ℚ × ℚ :=
  (c.Min / seconds c.Window, c.Max - c.Min)

/-- The `Bucket` interface; the two implementations shipped by the package. -/
inductive Bucket where
  | rate (r : Rate)
  | capacity (c : Capacity)
deriving DecidableEq

/-- Dispatch of the `Rate()` interface method. -/
def Bucket.Rate : Bucket → ℚ × ℚ
  | .rate r => r.Rate
  | .capacity c => c.Rate

/-- Dispatch of the `Rate()` interface method, with the resolved flow kept
as an IEEE value; this is the resolution the constructors validate and
consolidate (the fields of a `Rate` bucket are user-supplied finite
values). -/
def Bucket.RateF : Bucket → F64 × ℚ
  | .rate r => (.fin r.Flow, r.Burst)
  | .capacity c => c.RateF

/-- The rational projection of the faithful resolution is exactly the ideal
resolution `Bucket.Rate`. -/
theorem RateF_toRat (b : Bucket) :
    ((Bucket.RateF b).1.toRat, (Bucket.RateF b).2) = Bucket.Rate b := by
  cases b with
  | rate r => rfl
  | capacity c =>
    show (F64.toRat (fdiv c.Min (seconds c.Window)), c.Max - c.Min) =
      (c.Min / seconds c.Window, c.Max - c.Min)
    unfold fdiv
    by_cases h : seconds c.Window = 0
    · rw [if_pos h, h, div_zero]
      split_ifs <;> rfl
    · rw [if_neg h]
      rfl

/-- Away from the zero window, the faithful resolution is the finite ideal
one. -/
theorem Capacity.RateF_of_window_ne {c : Capacity} (h : c.Window ≠ 0) :
    c.RateF = (.fin (c.Rate).1, (c.Rate).2) := by
  unfold Capacity.RateF Capacity.Rate fdiv
  rw [if_neg]
  unfold seconds
  intro hz
  rw [div_eq_zero_iff] at hz
  rcases hz with hz | hz
  · exact h (by exact_mod_cast hz)
  · norm_num at hz

/-! ## The Redis client boundary (script source file) -/

/-- Dynamic (`any`) values returned by the Redis `Eval` interface. -/
inductive RVal where
  | int (i : ℤ)
  | str (s : String)
  | arr (xs : List RVal)
  | nil

/-- A Redis client: `Eval` is always supported; `EvalSha` support is the
optional interface upgrade (`eval.(EvalSha)` type assertion in Go). -/
structure Client where
  eval : String → List String → List ℚ → Except String RVal
  evalsha : Option (String → List String → List ℚ → Except String RVal)

/-- The embedded procedure body (`//go:embed script/bucket.min.lua`).  The
file's contents are not part of the reviewed sources; only its identity
matters to the claims, so a placeholder string stands for the body. -/
def script : String := "embedded:script/bucket.min.lua"

/-- The embedded short reference (`//go:embed script/bucket.min.lua.sha1`).
Placeholder contents, as for `script`. -/
def sha1 : String := "embedded:script/bucket.min.lua.sha1"

/-- `contains` on character lists: does `pat` occur as a contiguous
substring? -/
def containsAux (pat : List Char) : List Char → Bool
  | [] => pat.isEmpty
  | c :: rest => List.isPrefixOf pat (c :: rest) || containsAux pat rest

/-- `strings.Contains(err.Error(), "NOSCRIPT")`. -/
def containsNOSCRIPT (s : String) : Bool :=
  containsAux "NOSCRIPT".toList s.toList

/-- `exec`: try `EvalSha` when the client supports it; fall back to a full
`Eval` of the script body only on a NOSCRIPT error. -/
def exec (c : Client) (keys : List String) (args : List ℚ) :
    Except String RVal :=
  match c.evalsha with
  | some evalsha =>
    match evalsha sha1 keys args with
    | .ok res => .ok res
    | .error e =>
      if containsNOSCRIPT e then c.eval script keys args else .error e
  | none => c.eval script keys args

/-- One remote invocation recorded by the instrumented `execTrace`. -/
inductive Call where
  | shaCall
  | fullCall
deriving DecidableEq, Repr

/-- `exec` instrumented with the list of remote invocations it performs, in
order; its first component is proven equal to `exec` below. -/
def execTrace (c : Client) (keys : List String) (args : List ℚ) :
    Except String RVal × List Call :=
  match c.evalsha with
  | some evalsha =>
    match evalsha sha1 keys args with
    | .ok res => (.ok res, [.shaCall])
    | .error e =>
      if containsNOSCRIPT e then (c.eval script keys args, [.shaCall, .fullCall])
      else (.error e, [.shaCall])
  | none => (c.eval script keys args, [.fullCall])

/-! ## Results and call outcomes -/

/-- `Result` of a rate-limiting test.  `Wait` is kept in rational seconds
(idealizing the `time.Duration` conversion). -/
structure Result where
  Allow : Bool
  Free : ℚ
  Wait : ℚ
deriving DecidableEq, Repr

/-- Outcome of a `Test` call: a result, a returned error, or a Go runtime
panic (out-of-range index into the argument vector). -/
inductive TOut where
  | ok (r : Result)
  | err (e : String)
  | panicked
deriving DecidableEq, Repr

/-! ## Tier consolidation (shared by both constructors) -/

/-- The sort order used by both constructors (`sort.Slice` with
"flow ascending, ties by burst ascending"): the reflexive closure of the
strict lexicographic comparison in the source. -/
def rateLE (a b : Rate) : Prop :=
  a.Flow < b.Flow ∨ (a.Flow = b.Flow ∧ a.Burst ≤ b.Burst)

instance : DecidableRel rateLE := fun a b => by
  unfold rateLE; infer_instance

instance : IsTotal Rate rateLE where
  total a b := by
    unfold rateLE
    rcases lt_trichotomy a.Flow b.Flow with h | h | h
    · exact Or.inl (Or.inl h)
    · rcases le_total a.Burst b.Burst with hb | hb
      · exact Or.inl (Or.inr ⟨h, hb⟩)
      · exact Or.inr (Or.inr ⟨h.symm, hb⟩)
    · exact Or.inr (Or.inl h)

instance : IsTrans Rate rateLE where
  trans a b c hab hbc := by
    unfold rateLE at *
    rcases hab with h1 | ⟨h1, h1'⟩ <;> rcases hbc with h2 | ⟨h2, h2'⟩
    · exact Or.inl (h1.trans h2)
    · exact Or.inl (h2 ▸ h1)
    · exact Or.inl (h1 ▸ h2)
    · exact Or.inr ⟨h1.trans h2, h1'.trans h2'⟩

/-- The argument-building loop body shared by `New` and `NewLimiter`: scan
the sorted tail, appending `flow, burst` only when the burst is strictly
below the last appended burst (`args[len(args)-1]`), carried here as the
`last` parameter. -/
def pruneArgs (last : ℚ) : List Rate → List ℚ
  | [] => []
  | r :: rest =>
    if r.Burst < last then r.Flow :: r.Burst :: pruneArgs r.Burst rest
    else pruneArgs last rest

/-- `args := []any{rates[0].Flow, rates[0].Burst}` followed by the pruning
scan over the remaining (sorted) rates — the loop on the finite fragment,
in which every resolved flow is an exact rational.  The constructors run
the same loop over faithfully resolved values (`consolidateArgsF`); the two
agree on the finite fragment (`consolidateArgsF_map_fin` below). -/
def consolidateArgs : List Rate → List ℚ
  | [] => []
  | r :: rest => r.Flow :: r.Burst :: pruneArgs r.Burst rest

/-- The sort order used by both constructors over faithfully resolved
tiers: IEEE flow order ascending (with the disclosed `NaN`-last
completion), ties broken by ascending burst. -/
def frateLE (a b : F64 × ℚ) : Prop :=
  a.1.ltb b.1 = true ∨ (a.1 = b.1 ∧ a.2 ≤ b.2)

instance : DecidableRel frateLE := fun a b => by
  unfold frateLE; infer_instance

theorem F64.eq_of_rank_val {x y : F64} (hr : x.rank = y.rank) (hv : x.val = y.val) :
    x = y := by
  cases x <;> cases y <;> simp_all [F64.rank, F64.val]

instance : IsTotal (F64 × ℚ) frateLE where
  total a b := by
    unfold frateLE F64.ltb
    rcases Nat.lt_trichotomy a.1.rank b.1.rank with h | h | h
    · left; left; simp [h]
    · rcases lt_trichotomy a.1.val b.1.val with hv | hv | hv
      · left; left; simp [h, hv]
      · have he : a.1 = b.1 := F64.eq_of_rank_val h hv
        rcases le_total a.2 b.2 with hb | hb
        · exact Or.inl (Or.inr ⟨he, hb⟩)
        · exact Or.inr (Or.inr ⟨he.symm, hb⟩)
      · right; left; simp [h.symm, hv]
    · right; left; simp [h]

theorem F64.ltb_trans {x y z : F64} (h1 : x.ltb y = true) (h2 : y.ltb z = true) :
    x.ltb z = true := by
  unfold F64.ltb at *
  simp only [Bool.or_eq_true, Bool.and_eq_true, decide_eq_true_eq] at *
  rcases h1 with h1 | ⟨h1, h1'⟩ <;> rcases h2 with h2 | ⟨h2, h2'⟩
  · exact Or.inl (h1.trans h2)
  · exact Or.inl (h2 ▸ h1)
  · exact Or.inl (h1 ▸ h2)
  · exact Or.inr ⟨h1.trans h2, h1'.trans h2'⟩

instance : IsTrans (F64 × ℚ) frateLE where
  trans a b c hab hbc := by
    unfold frateLE at *
    rcases hab with hab | ⟨he, hb⟩ <;> rcases hbc with hbc | ⟨he', hb'⟩
    · exact Or.inl (F64.ltb_trans hab hbc)
    · exact Or.inl (he' ▸ hab)
    · exact Or.inl (he ▸ hbc)
    · exact Or.inr ⟨he.trans he', hb.trans hb'⟩

/-- The argument-building scan over faithfully resolved tiers: the same
loop as `pruneArgs`, with flows carried as IEEE values; the compared
`args[len(args)-1]` entry is always a (finite) burst. -/
def pruneArgsF (last : ℚ) : List (F64 × ℚ) → List F64
  | [] => []
  | r :: rest =>
    if r.2 < last then r.1 :: .fin r.2 :: pruneArgsF r.2 rest
    else pruneArgsF last rest

/-- The frozen argument list over faithfully resolved tiers. -/
def consolidateArgsF : List (F64 × ℚ) → List F64
  | [] => []
  | r :: rest => r.1 :: .fin r.2 :: pruneArgsF r.2 rest

/-- The shared body of the two `validate` copies: the response must be a
3-element array of (int64, float-parseable string, int64); any other shape
is the (per-package) decode error.  `allow`, the parsed `value`, and `index`
are returned otherwise. -/
def validateWith (msg : String) (parse : String → Option ℚ) (raw : RVal) :
    Except String (ℤ × ℚ × ℤ) :=
  match raw with
  | .arr [.int allow, .str val, .int index] =>
    match parse val with
    | some value => .ok (allow, value, index)
    | none => .error msg
  | _ => .error msg

/-! ## The limiter: functional-options variant (namespace `F`) -/

/-- A limiter instance.  Both Go variants declare an identical struct
(`args`, `redis`, `prefix`, `backoff`); one Lean structure serves both.
The Go field `prefix` is rendered `keyPrefix`. -/
structure Limiter where
  args : List ℚ
  redis : Client
  keyPrefix : String
  backoff : ℚ → ℚ

namespace F

/-- The private `config` struct of the functional-options variant.  Go's
zero value for the `backoff` field is a nil function pointer; it is
unconditionally overwritten by `WithLinearBackoff(2)` before any use, so the
stand-in initial value `fun _ => 0` is never observable. -/
structure Options where
  rates : List (F64 × ℚ)
  keyPrefix : String
  backoff : ℚ → ℚ

/-- `Config` is an opaque `func(*config)` in Go; outside the package the
only inhabitants are the exported option constructors, modelled as this
closed inductive. -/
inductive Config where
  | withAdditionalBucket (b : Bucket)
  | withPrefix (p : String)
  | withConstantBackoff (k : ℚ)
  | withLinearBackoff (k : ℚ)
  | withPowerBackoff (k : ℚ)
  | withExponentialBackoff (k : ℚ)
  | withCustomBackoff (f : ℚ → ℚ)

/-- The action of each option constructor on the config record, from
`WithAdditionalBucket`, `WithPrefix` and the backoff options source file. -/
def Config.apply (cfg : Config) (c : Options) : Options :=
  match cfg with
  | .withAdditionalBucket b => { c with rates := c.rates ++ [Bucket.RateF b] }
  | .withPrefix p => { c with keyPrefix := p }
  | .withConstantBackoff k => { c with backoff := fun _deny => k }
  | .withLinearBackoff k => { c with backoff := fun deny => k * deny }
  | .withPowerBackoff k => { c with backoff := fun deny => mathPow deny k }
  | .withExponentialBackoff k => { c with backoff := fun deny => mathPow k deny }
  | .withCustomBackoff f => { c with backoff := f }

/-- `New`: nil-client check, then apply `WithLinearBackoff(2)`,
`WithAdditionalBucket(bucket)` and the caller's options in order; sort and
consolidate the (faithfully resolved) rates; reject when any consolidated
argument satisfies the IEEE `arg <= 0`.  The stored template is the
rational projection of the consolidated arguments (lossless unless a
zero-window capacity was accepted; no theorem relies on that corner's
stored value). -/
def New (redis : Option Client) (bucket : Bucket) (configs : List Config) :
    Except String Limiter :=
  match redis with
  | none => .error "limiter: must have a redis client"
  | some cl =>
    let c0 : Options := { rates := [], keyPrefix := "", backoff := fun _ => 0 }
    let c := configs.foldl (fun c cfg => cfg.apply c)
      ((Config.withAdditionalBucket bucket).apply ((Config.withLinearBackoff 2).apply c0))
    let args := consolidateArgsF (List.insertionSort frateLE c.rates)
    if args.any F64.le0 then
      .error "limiter: rate parameters must be positive"
    else
      .ok { args := args.map F64.toRat, redis := cl, keyPrefix := c.keyPrefix,
            backoff := c.backoff }

/-- `validate` (functional-options variant): the response must be a
3-element array of (int64, float-parseable string, int64).  The two Go
copies of `validate` are textually identical except for the wording of the
error message, factored out here as `validateWith`. -/
def validate (parse : String → Option ℚ) (raw : RVal) :
    Except String (ℤ × ℚ × ℤ) :=
  validateWith "limiter: invalid type returned from eval" parse raw

/-- `Test` (functional-options variant): build keys and the per-call
argument vector, execute, validate, and decode.  `args[2*index-1]` with an
out-of-range index is a Go panic, rendered `TOut.panicked`. -/
def Test (l : Limiter) (parse : String → Option ℚ) (key : String) (cost : ℚ) :
    TOut :=
  let keys := [l.keyPrefix ++ key]
  let args := cost :: l.args
  match exec l.redis keys args with
  | .error e => .err e
  | .ok raw =>
    match validate parse raw with
    | .error e => .err e
    | .ok (allow, value, index) =>
      if allow = 1 then .ok { Allow := true, Free := value, Wait := 0 }
      else
        let j : ℤ := 2 * index - 1
        if 0 ≤ j then
          match args.get? j.toNat with
          | some flow =>
            .ok { Allow := false, Free := 0,
                  Wait := (cost / flow) * l.backoff (value / cost) }
          | none => .panicked
        else .panicked

end F

/-! ## The limiter: config-struct variant (namespace `S`) -/

namespace S

/-- The `Config` struct of the config-struct variant.  `Redis` and `Backoff`
are nil-able interface values, hence `Option`; the Go field `Prefix` is
rendered `KeyPrefix`. -/
structure Config where
  Redis : Option Client
  KeyPrefix : String
  Backoff : Option (ℚ → ℚ)
  Buckets : List Bucket

/-- `NewLimiter`: nil-client and empty-bucket checks, default backoff,
resolve all buckets rejecting any whose IEEE-resolved flow or burst
satisfies `<= 0` (a zero-window capacity with positive minimum resolves to
`+Inf` and passes), then sort and consolidate.  The stored template is the
rational projection of the consolidated arguments (lossless unless a
zero-window capacity was accepted). -/
def NewLimiter (c : Config) : Except String Limiter :=
  match c.Redis with
  | none => .error "the limiter must have a redis client"
  | some cl =>
    if c.Buckets.isEmpty then .error "the limiter must have provided rates"
    else
      let backoff := c.Backoff.getD (Linear 2)
      let rates := c.Buckets.map Bucket.RateF
      if rates.any (fun r => r.1.le0 || decide (r.2 ≤ 0)) then
        .error "all rate parameters must be positive"
      else
        let args := consolidateArgsF (List.insertionSort frateLE rates)
        .ok { args := args.map F64.toRat, redis := cl, keyPrefix := c.KeyPrefix,
              backoff := backoff }

/-- `validate` (config-struct variant): identical checks to the
functional-options variant, with a differently worded error message. -/
def validate (parse : String → Option ℚ) (raw : RVal) :
    Except String (ℤ × ℚ × ℤ) :=
  validateWith "invalid type returned from eval" parse raw

/-- `Test` (config-struct variant); textually identical to the
functional-options `Test` except for the `validate` it calls. -/
def Test (l : Limiter) (parse : String → Option ℚ) (key : String) (cost : ℚ) :
    TOut :=
  let keys := [l.keyPrefix ++ key]
  let args := cost :: l.args
  match exec l.redis keys args with
  | .error e => .err e
  | .ok raw =>
    match validate parse raw with
    | .error e => .err e
    | .ok (allow, value, index) =>
      if allow = 1 then .ok { Allow := true, Free := value, Wait := 0 }
      else
        let j : ℤ := 2 * index - 1
        if 0 ≤ j then
          match args.get? j.toNat with
          | some flow =>
            .ok { Allow := false, Free := 0,
                  Wait := (cost / flow) * l.backoff (value / cost) }
          | none => .panicked
        else .panicked

end S

/-! ## Spec-level consolidation (§4.2), at the tier level -/

/-- Modelled from the spec (§4.2, step 3): scan the remaining sorted tiers
in order, keeping a tier exactly when its burst is strictly less than the
burst of the most recently kept tier (`lastKept`). -/
def keepScan (lastKept : Rate) : List Rate → List Rate
  | [] => []
  | r :: rest =>
    if r.Burst < lastKept.Burst then r :: keepScan r rest
    else keepScan lastKept rest

/-- Modelled from the spec (§4.2): sort ascending by flow with ties broken
by ascending burst, always keep the first tier, then `keepScan` the rest. -/
def consolidate (l : List Rate) : List Rate :=
  match List.insertionSort rateLE l with
  | [] => []
  | h :: t => h :: keepScan h t

/-- Flatten a tier list into the `[flow_1, burst_1, flow_2, burst_2, …]`
argument layout used by the constructors. -/
def flattenRates : List Rate → List ℚ
  | [] => []
  | r :: rest => r.Flow :: r.Burst :: flattenRates rest

/-! ## The atomic evaluator, modelled from the spec (§4.4)

The Lua script `script/bucket.min.lua` is embedded in the binary by
reference only; its body is not among the reviewed sources.  The following
definitions model its required behavior from the specification. -/

/-- A rate tier as seen by the evaluator. -/
structure Tier where
  flow : ℚ
  burst : ℚ
deriving DecidableEq, Repr

/-- Per-key, per-tier persisted bucket state. -/
structure BState where
  level : ℚ
  time : ℚ
deriving DecidableEq, Repr

/-- Modelled from the spec (§4.4 step 1): the decayed level of one tier,
with absent state read as level `0` at time `now`, and `elapsed` and the
decayed level both clamped at `0`. -/
def decayed (now : ℚ) (t : Tier) (st : Option BState) : ℚ :=
  match st with
  | none => 0
  | some s => max 0 (s.level - t.flow * max 0 (now - s.time))

/-- Modelled from the spec (§4.4 step 2): the projected level of one tier. -/
def projected (cost now : ℚ) (t : Tier) (st : Option BState) : ℚ :=
  decayed now t st + cost

/-- Modelled from the spec (§4.4 step 5): the implied wait of a violating
tier, the quantity maximized when choosing the controlling tier. -/
def waitOf (t : Tier) (p : ℚ) : ℚ := (p - t.burst) / t.flow

/-- Minimum of a list of rationals (`0` on the empty list; the evaluator
only applies it to a non-empty tier list). -/
def minList : List ℚ → ℚ
  | [] => 0
  | [x] => x
  | x :: y :: rest => min x (minList (y :: rest))

/-- Of two violation entries, the one with the larger implied wait, the
first winning ties; entries are `(0-based index, tier, projected level)`. -/
def pickBetter (x y : ℕ × Tier × ℚ) : ℕ × Tier × ℚ :=
  if waitOf x.2.1 x.2.2 < waitOf y.2.1 y.2.2 then y else x

/-- Pick the entry maximizing the implied wait, earliest entry winning
ties. -/
def pickMax : List (ℕ × Tier × ℚ) → Option (ℕ × Tier × ℚ)
  | [] => none
  | [x] => some x
  | x :: y :: rest => (pickMax (y :: rest)).map (pickBetter x)

/-- Structured outcome of one admission test inside the evaluator:
either admission with the remaining headroom, or denial with the excess and
the 1-based index of the controlling tier. -/
inductive EvalRes where
  | allow (free : ℚ)
  | deny (excess : ℚ) (index : ℕ)
deriving DecidableEq, Repr

/-- Modelled from the spec (§4.4): one atomic admission test at time `now`
over the consolidated tier list paired with each tier's current state.
Returns the decision and the committed state list (unchanged on denial).
The `.deny 0 0` default of the final match is unreachable: when some tier
violates, the filtered violation list is non-empty. -/
def evalBucket (cost now : ℚ) (l : List (Tier × Option BState)) :
    EvalRes × List (Option BState) :=
  let ps : List (Tier × ℚ) := l.map (fun ts => (ts.1, projected cost now ts.1 ts.2))
  if ps.all (fun tp => decide (tp.2 ≤ tp.1.burst)) then
    (.allow (minList (ps.map (fun tp => tp.1.burst - tp.2))),
     ps.map (fun tp => some ⟨tp.2, now⟩))
  else
    match pickMax (ps.enum.filter (fun ip => decide (ip.2.1.burst < ip.2.2))) with
    | some (i, t, p) => (.deny (p - t.burst) (i + 1), l.map Prod.snd)
    | none => (.deny 0 0, l.map Prod.snd)

/-! ## Concrete clients used in witnesses -/

/-- A trivial client whose `Eval` always returns the nil reply. -/
def nullClient : Client :=
  { eval := fun _ _ _ => .ok .nil, evalsha := none }

/-- A client whose `EvalSha` fails with a NOSCRIPT error and whose `Eval`
replies `1`. -/
def shaFailClient : Client :=
  { eval := fun _ _ _ => .ok (.int 1),
    evalsha := some (fun _ _ _ => .error "NOSCRIPT No matching script") }

/-! ## Helper lemmas -/

/-- Is an option constructor one of the backoff-selecting ones? -/
def F.Config.isBackoffOpt : F.Config → Bool
  | .withAdditionalBucket _ => false
  | .withPrefix _ => false
  | _ => true

theorem foldl_apply_backoff_const (cfgs : List F.Config) (c : F.Options)
    (h : cfgs.all (fun cfg => !cfg.isBackoffOpt) = true) :
    (cfgs.foldl (fun c cfg => cfg.apply c) c).backoff = c.backoff := by
  induction cfgs generalizing c with
  | nil => rfl
  | cons x xs ih =>
    rw [List.all_cons, Bool.and_eq_true] at h
    cases x <;> simp only [F.Config.isBackoffOpt, Bool.not_false, Bool.not_true] at h <;>
      first
        | exact (ih _ h.2)
        | exact absurd h.1 (by decide)

theorem pruneArgs_flatten (lk : Rate) :
    ∀ l : List Rate, pruneArgs lk.Burst l = flattenRates (keepScan lk l)
  | [] => rfl
  | r :: rest => by
    by_cases h : r.Burst < lk.Burst
    · simp only [pruneArgs, keepScan, if_pos h, flattenRates]
      exact congrArg (fun t => r.Flow :: r.Burst :: t) (pruneArgs_flatten r rest)
    · simp only [pruneArgs, keepScan, if_neg h]
      exact pruneArgs_flatten lk rest

theorem consolidateArgs_flatten (l : List Rate) :
    consolidateArgs (List.insertionSort rateLE l) = flattenRates (consolidate l) := by
  unfold consolidate
  cases h : List.insertionSort rateLE l with
  | nil => rfl
  | cons a t =>
    simp only [consolidateArgs, flattenRates]
    exact congrArg (fun x => a.Flow :: a.Burst :: x) (pruneArgs_flatten a t)

/-! ## C9: bucket resolution -/

/-- C9: resolving a `Rate` bucket returns its `Flow` and `Burst` fields
unchanged; resolving a `Capacity` bucket with window `w` (nanoseconds),
minimum `min` and maximum `max` returns flow `= min / w_in_seconds` and
burst `= max - min`. -/
theorem bucket_resolution (r : Rate) (c : Capacity) :
    r.Rate = (r.Flow, r.Burst) ∧
    c.Rate = (c.Min / ((c.Window : ℚ) / 1000000000), c.Max - c.Min) ∧
    Bucket.Rate (.rate r) = (r.Flow, r.Burst) ∧
    Bucket.Rate (.capacity c) = (c.Min / ((c.Window : ℚ) / 1000000000), c.Max - c.Min) :=
  ⟨rfl, rfl, rfl, rfl⟩

/-! ## C7: backoff laws -/

/-- C7: `Constant(k)(r) = k`, `Linear(k)(r) = k * r`, `Power(k)(r) = r ^ k`,
`Exponential(k)(r) = k ^ r` (power laws on the integer-exponent fragment
exactly representable in the rational idealization of `float64`);
the four concrete examples; and a limiter constructed without an explicit
backoff — by either constructor — uses `Linear 2`. -/
theorem backoff_laws :
    (∀ k r : ℚ, Constant k r = k) ∧
    (∀ k r : ℚ, Linear k r = k * r) ∧
    (∀ (k : ℤ) (r : ℚ), Power (k : ℚ) r = r ^ k) ∧
    (∀ (k : ℚ) (r : ℤ), Exponential k (r : ℚ) = k ^ r) ∧
    (Constant 2 3 = 2 ∧ Linear 2 3 = 6 ∧ Power 2 3 = 9 ∧ Exponential 2 3 = 8) ∧
    (∀ (cl : Client) (p : String) (bs : List Bucket) (lim : Limiter),
      S.NewLimiter ⟨some cl, p, none, bs⟩ = .ok lim → lim.backoff = Linear 2) ∧
    (∀ (redis : Option Client) (b : Bucket) (cfgs : List F.Config) (lim : Limiter),
      cfgs.all (fun cfg => !cfg.isBackoffOpt) = true →
      F.New redis b cfgs = .ok lim → lim.backoff = Linear 2) := by
  refine ⟨fun _ _ => rfl, fun _ _ => rfl, ?_, ?_, ⟨rfl, by norm_num [Linear], ?_, ?_⟩, ?_, ?_⟩
  · intro k r
    simp [Power, mathPow]
  · intro k r
    simp [Exponential, mathPow]
  · show mathPow 3 2 = 9
    norm_num [mathPow]
  · show mathPow 2 3 = 8
    norm_num [mathPow]
  · intro cl p bs lim h
    unfold S.NewLimiter at h
    simp only at h
    split at h
    · exact absurd h (by simp)
    · split at h
      · exact absurd h (by simp)
      · exact (congrArg Limiter.backoff (Except.ok.inj h)).symm
  · intro redis b cfgs lim hno h
    unfold F.New at h
    cases redis with
    | none => exact absurd h (by simp)
    | some cl =>
      simp only at h
      split at h
      · exact absurd h (by simp)
      · have hb := foldl_apply_backoff_const cfgs
          ((F.Config.withAdditionalBucket b).apply ((F.Config.withLinearBackoff 2).apply
            { rates := [], keyPrefix := "", backoff := fun _ => 0 })) hno
        have := (congrArg Limiter.backoff (Except.ok.inj h)).symm
        rw [this, hb]
        rfl

/-- Witness for C7: a limiter built by the config-struct constructor with
no explicit backoff carries `Linear 2`. -/
theorem backoff_laws_witness :
    (⟨[1, 2], nullClient, "", Linear 2⟩ : Limiter).backoff = Linear 2 :=
  backoff_laws.2.2.2.2.2.1 nullClient "" [.rate ⟨1, 2⟩] ⟨[1, 2], nullClient, "", Linear 2⟩
    (by norm_num [S.NewLimiter, Bucket.RateF, frateLE, F64.ltb, F64.rank, F64.val, F64.le0,
      F64.toRat, List.insertionSort, List.orderedInsert, consolidateArgsF, pruneArgsF])

/-! ## C6: the EvalSha fallback protocol -/

/-- C6: with an `EvalSha`-capable client, `exec` attempts the short
reference first; a success or a non-NOSCRIPT error is returned as-is with no
further call; a NOSCRIPT error triggers exactly one fallback to a full
`Eval` of the script body, whose outcome is returned unchanged; a client
without `EvalSha` support is invoked directly with the full body.  The call
trace of the instrumented `execTrace` records the invocations and its result
agrees with `exec`. -/
theorem exec_fallback (c : Client) (keys : List String) (args : List ℚ) :
    (execTrace c keys args).1 = exec c keys args ∧
    (c.evalsha = none →
      exec c keys args = c.eval script keys args ∧
      (execTrace c keys args).2 = [.fullCall]) ∧
    (∀ f, c.evalsha = some f →
      (∀ r, f sha1 keys args = .ok r →
        exec c keys args = .ok r ∧ (execTrace c keys args).2 = [.shaCall]) ∧
      (∀ e, f sha1 keys args = .error e →
        (containsNOSCRIPT e = true →
          exec c keys args = c.eval script keys args ∧
          (execTrace c keys args).2 = [.shaCall, .fullCall]) ∧
        (containsNOSCRIPT e = false →
          exec c keys args = .error e ∧
          (execTrace c keys args).2 = [.shaCall]))) := by
  refine ⟨?_, fun h => ?_, fun g hg => ⟨fun r hr => ?_, fun e he => ⟨fun hn => ?_, fun hn => ?_⟩⟩⟩
  · cases hs : c.evalsha with
    | none => simp [exec, execTrace, hs]
    | some f =>
      cases hr : f sha1 keys args with
      | ok r => simp [exec, execTrace, hs, hr]
      | error e =>
        by_cases hn : containsNOSCRIPT e <;> simp [exec, execTrace, hs, hr, hn]
  · exact ⟨by simp [exec, h], by simp [execTrace, h]⟩
  · exact ⟨by simp [exec, hg, hr], by simp [execTrace, hg, hr]⟩
  · exact ⟨by simp [exec, hg, he, hn], by simp [execTrace, hg, he, hn]⟩
  · exact ⟨by simp [exec, hg, he, hn], by simp [execTrace, hg, he, hn]⟩

/-- Witness for C6 at a concrete client: a NOSCRIPT failure of `EvalSha`
falls back to the full `Eval`, and the trace shows exactly the two calls. -/
theorem exec_fallback_witness :
    exec shaFailClient [] [] = shaFailClient.eval script [] [] ∧
    (execTrace shaFailClient [] []).2 = [.shaCall, .fullCall] :=
  (((exec_fallback shaFailClient [] []).2.2 _ rfl).2 _ rfl).1 (by decide)

/-! ## C2: consolidation, as performed by construction -/

theorem frateLE_fin_iff (a b : Rate) :
    frateLE (.fin a.Flow, a.Burst) (.fin b.Flow, b.Burst) ↔ rateLE a b := by
  unfold frateLE rateLE F64.ltb F64.rank F64.val
  simp [F64.fin.injEq]

/-- On the finite fragment the faithful sort is the finite sort. -/
theorem insertionSort_map_fin (l : List Rate) :
    List.insertionSort frateLE (l.map (fun r => (F64.fin r.Flow, r.Burst))) =
      (List.insertionSort rateLE l).map (fun r => (F64.fin r.Flow, r.Burst)) :=
  (List.map_insertionSort rateLE frateLE _ l
    (fun a _ b _ => (frateLE_fin_iff a b).symm)).symm

theorem pruneArgsF_map_fin (l : List Rate) :
    ∀ last : ℚ, pruneArgsF last (l.map (fun r => (F64.fin r.Flow, r.Burst))) =
      (pruneArgs last l).map F64.fin := by
  induction l with
  | nil => intro last; rfl
  | cons r t ih =>
    intro last
    simp only [List.map_cons]
    unfold pruneArgsF pruneArgs
    by_cases h : r.Burst < last
    · rw [if_pos h, if_pos h]
      simp [ih]
    · rw [if_neg h, if_neg h]
      exact ih last

theorem consolidateArgsF_map_fin (l : List Rate) :
    consolidateArgsF (l.map (fun r => (F64.fin r.Flow, r.Burst))) =
      (consolidateArgs l).map F64.fin := by
  cases l with
  | nil => rfl
  | cons r t =>
    simp only [List.map_cons]
    unfold consolidateArgsF consolidateArgs
    simp [pruneArgsF_map_fin]

/-- On the finite fragment — any mix of `Rate` buckets and
non-zero-window `Capacity` buckets — the faithful pipeline freezes exactly
the arguments of the finite loop embedding: the constructors remain the Go
argument loops over rational values there. -/
theorem args_map_fin (l : List Rate) :
    (consolidateArgsF (List.insertionSort frateLE
        (l.map (fun r => (F64.fin r.Flow, r.Burst))))).map F64.toRat =
      consolidateArgs (List.insertionSort rateLE l) := by
  rw [insertionSort_map_fin, consolidateArgsF_map_fin, List.map_map]
  have h : F64.toRat ∘ F64.fin = id := funext (fun q => rfl)
  rw [h, List.map_id]

/-- C2: for every non-empty tier list, the argument vector frozen by the
constructors (sort, keep the first tier, keep a later tier exactly when its
burst is strictly below the most recently kept burst) is the flattening of
the spec-level consolidation; on the example tier set
`{(0.1,4), (0.2,3), (0.2,2), (0.3,2), (0.4,1)}` the consolidated ordered
result is `[(0.1,4), (0.2,2), (0.4,1)]`, and both constructors freeze
exactly the argument vector `[0.1, 4, 0.2, 2, 0.4, 1]`. -/
theorem consolidation_correct :
    (∀ (r : Rate) (rest : List Rate),
      consolidateArgs (List.insertionSort rateLE (r :: rest)) =
        flattenRates (consolidate (r :: rest))) ∧
    consolidate [⟨0.1, 4⟩, ⟨0.2, 3⟩, ⟨0.2, 2⟩, ⟨0.3, 2⟩, ⟨0.4, 1⟩] =
      [⟨0.1, 4⟩, ⟨0.2, 2⟩, ⟨0.4, 1⟩] ∧
    S.NewLimiter ⟨some nullClient, "", none,
        [.rate ⟨0.1, 4⟩, .rate ⟨0.2, 3⟩, .rate ⟨0.2, 2⟩, .rate ⟨0.3, 2⟩, .rate ⟨0.4, 1⟩]⟩ =
      .ok ⟨[0.1, 4, 0.2, 2, 0.4, 1], nullClient, "", Linear 2⟩ ∧
    F.New (some nullClient) (.rate ⟨0.1, 4⟩)
        [.withAdditionalBucket (.rate ⟨0.2, 3⟩), .withAdditionalBucket (.rate ⟨0.2, 2⟩),
         .withAdditionalBucket (.rate ⟨0.3, 2⟩), .withAdditionalBucket (.rate ⟨0.4, 1⟩)] =
      .ok ⟨[0.1, 4, 0.2, 2, 0.4, 1], nullClient, "", fun deny => 2 * deny⟩ := by
  refine ⟨fun r rest => consolidateArgs_flatten (r :: rest), ?_, ?_, ?_⟩
  · norm_num [consolidate, List.insertionSort, List.orderedInsert, rateLE, keepScan]
  · norm_num [S.NewLimiter, Bucket.RateF, frateLE, F64.ltb, F64.rank, F64.val, F64.le0,
      F64.toRat, List.insertionSort, List.orderedInsert, consolidateArgsF, pruneArgsF]
  · norm_num [F.New, F.Config.apply, Bucket.RateF, frateLE, F64.ltb, F64.rank, F64.val,
      F64.le0, F64.toRat, List.insertionSort, List.orderedInsert, consolidateArgsF,
      pruneArgsF]

/-! ## C8: consolidation idempotence -/

theorem keepScan_subset (lk : Rate) :
    ∀ l : List Rate, ∀ x ∈ keepScan lk l, x ∈ l := by
  intro l
  induction l generalizing lk with
  | nil => intro x hx; exact absurd hx (by simp [keepScan])
  | cons y t ih =>
    intro x hx
    unfold keepScan at hx
    by_cases h : y.Burst < lk.Burst
    · rw [if_pos h] at hx
      rcases List.mem_cons.mp hx with rfl | hx'
      · exact List.mem_cons_self ..
      · exact List.mem_cons_of_mem _ (ih y x hx')
    · rw [if_neg h] at hx
      exact List.mem_cons_of_mem _ (ih lk x hx)

theorem keepScan_sorted (lk : Rate) (l : List Rate) (hs : List.Sorted rateLE l)
    (hall : ∀ y ∈ l, rateLE lk y) :
    List.Sorted rateLE (lk :: keepScan lk l) ∧
    List.Pairwise (fun a b => b.Burst < a.Burst) (lk :: keepScan lk l) := by
  induction l generalizing lk with
  | nil => simp [keepScan]
  | cons y t ih =>
    unfold keepScan
    rcases List.sorted_cons.mp hs with ⟨hyt, hst⟩
    by_cases h : y.Burst < lk.Burst
    · rw [if_pos h]
      have ihy := ih y hst hyt
      constructor
      · rw [List.sorted_cons]
        refine ⟨?_, ihy.1⟩
        intro b hb
        rcases List.mem_cons.mp hb with rfl | hb'
        · exact hall b (List.mem_cons_self ..)
        · exact hall b (List.mem_cons_of_mem _ (keepScan_subset y t b hb'))
      · rw [List.pairwise_cons]
        refine ⟨?_, ihy.2⟩
        intro b hb
        rcases List.mem_cons.mp hb with rfl | hb'
        · exact h
        · exact ((List.pairwise_cons.mp ihy.2).1 b hb').trans h
    · rw [if_neg h]
      exact ih lk hst (fun z hz => hall z (List.mem_cons_of_mem _ hz))

theorem keepScan_id (x : Rate) (l : List Rate)
    (h : List.Pairwise (fun a b => b.Burst < a.Burst) (x :: l)) :
    keepScan x l = l := by
  induction l generalizing x with
  | nil => rfl
  | cons y t ih =>
    rw [List.pairwise_cons] at h
    unfold keepScan
    rw [if_pos (h.1 y (List.mem_cons_self ..))]
    exact congrArg (y :: ·) (ih y h.2)

/-- C8: re-consolidating an already-consolidated tier list yields that same
list unchanged, in the same order. -/
theorem consolidation_idempotent (l : List Rate) :
    consolidate (consolidate l) = consolidate l := by
  rcases h : List.insertionSort rateLE l with _ | ⟨a, t⟩
  · have h0 : consolidate l = [] := by unfold consolidate; rw [h]
    rw [h0]
    rfl
  · have hsorted : List.Sorted rateLE (a :: t) := by
      rw [← h]; exact List.sorted_insertionSort rateLE l
    rcases List.sorted_cons.mp hsorted with ⟨hat, hst⟩
    have hks := keepScan_sorted a t hst hat
    have h1 : consolidate l = a :: keepScan a t := by unfold consolidate; rw [h]
    rw [h1]
    unfold consolidate
    rw [hks.1.insertionSort_eq]
    show a :: keepScan a (keepScan a t) = a :: keepScan a t
    rw [keepScan_id a (keepScan a t) hks.2]

/-! ## C4: construction-time validation -/

theorem pickMax_isSome : ∀ (a : ℕ × Tier × ℚ) (t : List (ℕ × Tier × ℚ)),
    ∃ x, pickMax (a :: t) = some x
  | a, [] => ⟨a, rfl⟩
  | a, b :: t => by
    obtain ⟨z, hz⟩ := pickMax_isSome b t
    exact ⟨pickBetter a z, by simp [pickMax, hz]⟩

theorem pickMax_mem :
    ∀ (l : List (ℕ × Tier × ℚ)) (x : ℕ × Tier × ℚ), pickMax l = some x → x ∈ l
  | [], x, h => by simp [pickMax] at h
  | [a], x, h => by
    simp only [pickMax, Option.some.injEq] at h
    subst h
    exact List.mem_cons_self ..
  | a :: b :: t, x, h => by
    obtain ⟨z, hz⟩ := pickMax_isSome b t
    simp only [pickMax, hz, Option.map_some, Option.map_some', Option.some.injEq] at h
    subst h
    unfold pickBetter
    by_cases hw : waitOf a.2.1 a.2.2 < waitOf z.2.1 z.2.2
    · rw [if_pos hw]
      exact List.mem_cons_of_mem _ (pickMax_mem _ _ hz)
    · rw [if_neg hw]
      exact List.mem_cons_self ..

theorem pickMax_le :
    ∀ (l : List (ℕ × Tier × ℚ)) (x : ℕ × Tier × ℚ), pickMax l = some x →
      ∀ y ∈ l, waitOf y.2.1 y.2.2 ≤ waitOf x.2.1 x.2.2
  | [], x, h, y, hy => by simp at hy
  | [a], x, h, y, hy => by
    simp only [pickMax, Option.some.injEq] at h
    subst h
    rcases List.mem_cons.mp hy with rfl | hy'
    · exact le_refl _
    · exact absurd hy' (by simp)
  | a :: b :: t, x, h, y, hy => by
    obtain ⟨z, hz⟩ := pickMax_isSome b t
    simp only [pickMax, hz, Option.map_some, Option.map_some', Option.some.injEq] at h
    subst h
    unfold pickBetter
    by_cases hw : waitOf a.2.1 a.2.2 < waitOf z.2.1 z.2.2
    · rw [if_pos hw]
      rcases List.mem_cons.mp hy with rfl | hy'
      · exact le_of_lt hw
      · exact pickMax_le _ _ hz y hy'
    · rw [if_neg hw]
      rcases List.mem_cons.mp hy with rfl | hy'
      · exact le_refl _
      · exact le_trans (pickMax_le _ _ hz y hy') (not_lt.mp hw)

/-- C1 (spec-modelled): one admission test with cost `c > 0` at time `now`
over the consolidated tier list: each tier's decayed level is
`max 0 (level - flow * max 0 (now - t))` with absent state read as level `0`
at time `now`; the projected level is `decayed + cost`; the test admits
exactly when every tier's projected level is at most its burst; on admission
every tier's state is committed to `(projected, now)` and
`min over tiers (burst - projected)` is returned; on denial no state
changes, and the evaluator returns the excess `projected - burst` of a
violating tier (1-based index) that maximizes the implied wait
`(projected - burst) / flow`. -/
theorem atomic_evaluator (cost now : ℚ) (l : List (Tier × Option BState))
    (hc : 0 < cost) (hne : l ≠ []) :
    (∀ (t : Tier) (s : BState),
      decayed now t (some s) = max 0 (s.level - t.flow * max 0 (now - s.time))) ∧
    (∀ t : Tier, decayed now t none = 0) ∧
    (∀ t st, projected cost now t st = decayed now t st + cost) ∧
    ((∃ fr, (evalBucket cost now l).1 = .allow fr) ↔
      ∀ ts ∈ l, projected cost now ts.1 ts.2 ≤ ts.1.burst) ∧
    (∀ fr, (evalBucket cost now l).1 = .allow fr →
      fr = minList (l.map (fun ts => ts.1.burst - projected cost now ts.1 ts.2)) ∧
      (evalBucket cost now l).2 =
        l.map (fun ts => some ⟨projected cost now ts.1 ts.2, now⟩)) ∧
    (∀ ex idx, (evalBucket cost now l).1 = .deny ex idx →
      (evalBucket cost now l).2 = l.map Prod.snd ∧
      1 ≤ idx ∧
      ∃ hi : idx - 1 < l.length,
        (l.get ⟨idx - 1, hi⟩).1.burst <
          projected cost now (l.get ⟨idx - 1, hi⟩).1 (l.get ⟨idx - 1, hi⟩).2 ∧
        ex = projected cost now (l.get ⟨idx - 1, hi⟩).1 (l.get ⟨idx - 1, hi⟩).2 -
          (l.get ⟨idx - 1, hi⟩).1.burst ∧
        ∀ ts ∈ l, ts.1.burst < projected cost now ts.1 ts.2 →
          waitOf ts.1 (projected cost now ts.1 ts.2) ≤
            waitOf (l.get ⟨idx - 1, hi⟩).1
              (projected cost now (l.get ⟨idx - 1, hi⟩).1 (l.get ⟨idx - 1, hi⟩).2)) := by
  refine ⟨fun t s => rfl, fun t => rfl, fun t st => rfl, ?_⟩
  by_cases hcond : (l.map (fun ts => (ts.1, projected cost now ts.1 ts.2))).all
      (fun tp => decide (tp.2 ≤ tp.1.burst)) = true
  · -- every tier fits: the allow branch
    have hres : evalBucket cost now l =
        ((.allow (minList ((l.map (fun ts => (ts.1, projected cost now ts.1 ts.2))).map
            (fun tp => tp.1.burst - tp.2)))),
         (l.map (fun ts => (ts.1, projected cost now ts.1 ts.2))).map
            (fun tp => some ⟨tp.2, now⟩)) := by
      unfold evalBucket
      rw [if_pos hcond]
    refine ⟨?_, ?_, ?_⟩
    · rw [hres]
      simp only [List.all_eq_true] at hcond
      constructor
      · intro _ ts hts
        have := hcond _ (List.mem_map_of_mem _ hts)
        rwa [decide_eq_true_eq] at this
      · intro _
        exact ⟨_, rfl⟩
    · intro fr hfr
      rw [hres] at hfr ⊢
      refine ⟨?_, ?_⟩
      · cases hfr
        rw [List.map_map]
        rfl
      · show List.map (fun tp => some (⟨tp.2, now⟩ : BState))
            (List.map (fun ts => (ts.1, projected cost now ts.1 ts.2)) l) =
          List.map (fun ts => some (⟨projected cost now ts.1 ts.2, now⟩ : BState)) l
        rw [List.map_map]
        rfl
    · intro ex idx hd
      rw [hres] at hd
      cases hd
  · -- some tier violates: the deny branch
    have hviol : ∃ ts ∈ l, ts.1.burst < projected cost now ts.1 ts.2 := by
      rcases List.all_eq_false.mp (Bool.eq_false_iff.mpr hcond) with ⟨tp, htp, hnp⟩
      obtain ⟨ts, hts, rfl⟩ := List.mem_map.mp htp
      rw [decide_eq_true_eq] at hnp
      exact ⟨ts, hts, not_le.mp hnp⟩
    -- the filtered violation list is non-empty, so pickMax returns a value
    have hvs : ∃ v, pickMax
        (((l.map (fun ts => (ts.1, projected cost now ts.1 ts.2))).enum).filter
          (fun ip => decide (ip.2.1.burst < ip.2.2))) = some v := by
      obtain ⟨ts, hts, hlt⟩ := hviol
      obtain ⟨i, hi⟩ := List.mem_iff_getElem?.mp hts
      have hmem : (i, (ts.1, projected cost now ts.1 ts.2)) ∈
          ((l.map (fun ts => (ts.1, projected cost now ts.1 ts.2))).enum).filter
            (fun ip => decide (ip.2.1.burst < ip.2.2)) := by
        rw [List.mem_filter]
        refine ⟨List.mk_mem_enum_iff_getElem?.mpr ?_, by simpa using hlt⟩
        rw [List.getElem?_map, hi]
        rfl
      cases hfl : ((l.map (fun ts => (ts.1, projected cost now ts.1 ts.2))).enum).filter
          (fun ip => decide (ip.2.1.burst < ip.2.2)) with
      | nil => rw [hfl] at hmem; exact absurd hmem (by simp)
      | cons a t => exact pickMax_isSome a t
    obtain ⟨⟨i0, t0, p0⟩, hpick⟩ := hvs
    have hres : evalBucket cost now l = (.deny (p0 - t0.burst) (i0 + 1), l.map Prod.snd) := by
      unfold evalBucket
      rw [if_neg hcond, hpick]
    -- properties of the picked entry
    have hmem0 := pickMax_mem _ _ hpick
    rw [List.mem_filter] at hmem0
    have hget0 : (l.map (fun ts => (ts.1, projected cost now ts.1 ts.2)))[i0]? =
        some (t0, p0) := List.mk_mem_enum_iff_getElem?.mp hmem0.1
    rw [List.getElem?_map] at hget0
    have hi0 : i0 < l.length := by
      cases hg : l[i0]? with
      | none => rw [hg] at hget0; cases hget0
      | some ts0 => exact (List.getElem?_eq_some_iff.mp hg).1
    have hts0 : l[i0] = (l.get ⟨i0, hi0⟩) := rfl
    have hget0' : (l[i0].1, projected cost now l[i0].1 l[i0].2) = (t0, p0) := by
      rw [List.getElem?_eq_getElem hi0] at hget0
      exact Option.some.inj (by simpa using hget0)
    have ht0 : t0 = l[i0].1 := (Prod.mk.injEq _ _ _ _ ▸ hget0').1.symm
    have hp0 : p0 = projected cost now l[i0].1 l[i0].2 :=
      ((Prod.mk.injEq _ _ _ _ ▸ hget0').2).symm
    have hlt0 : t0.burst < p0 := by
      have := hmem0.2
      rwa [decide_eq_true_eq] at this
    refine ⟨?_, ?_, ?_⟩
    · -- the allow/deny dichotomy
      rw [hres]
      constructor
      · rintro ⟨fr, hfr⟩
        cases hfr
      · intro hall
        obtain ⟨ts, hts, hlt⟩ := hviol
        exact absurd (hall ts hts) (not_le.mpr hlt)
    · intro fr hfr
      rw [hres] at hfr
      cases hfr
    · intro ex idx hd
      rw [hres] at hd
      injection hd with hex hidx
      subst hex hidx
      refine ⟨by rw [hres], Nat.le_add_left 1 i0, ?_⟩
      have hi' : i0 + 1 - 1 < l.length := by simpa using hi0
      refine ⟨hi', ?_, ?_, ?_⟩
      · have : l.get ⟨i0 + 1 - 1, hi'⟩ = l[i0] := by
          congr 1
        rw [this, ← hp0, ← ht0]
        exact hlt0
      · have : l.get ⟨i0 + 1 - 1, hi'⟩ = l[i0] := by
          congr 1
        rw [this, ← hp0, ← ht0]
      · intro ts hts hvts
        have hgl : l.get ⟨i0 + 1 - 1, hi'⟩ = l[i0] := by
          congr 1
        rw [hgl, ← hp0, ← ht0]
        obtain ⟨j, hj⟩ := List.mem_iff_getElem?.mp hts
        have hjmem : (j, (ts.1, projected cost now ts.1 ts.2)) ∈
            ((l.map (fun ts => (ts.1, projected cost now ts.1 ts.2))).enum).filter
              (fun ip => decide (ip.2.1.burst < ip.2.2)) := by
          rw [List.mem_filter]
          refine ⟨List.mk_mem_enum_iff_getElem?.mpr ?_, by simpa using hvts⟩
          rw [List.getElem?_map, hj]
          rfl
        exact pickMax_le _ _ hpick _ hjmem

/-- Witness for C1: a single fresh tier `(flow 1, burst 2)` with no prior
state admits a cost-1 test at time `0`. -/
theorem atomic_evaluator_witness :
    (0 : ℚ) < 1 ∧ ([((⟨1, 2⟩ : Tier), (none : Option BState))] ≠ []) ∧
    ((∃ fr, (evalBucket 1 0 [((⟨1, 2⟩ : Tier), (none : Option BState))]).1 = .allow fr) ↔
      ∀ ts ∈ [((⟨1, 2⟩ : Tier), (none : Option BState))],
        projected 1 0 ts.1 ts.2 ≤ ts.1.burst) :=
  ⟨by norm_num, by simp,
   (atomic_evaluator 1 0 [((⟨1, 2⟩ : Tier), (none : Option BState))]
     (by norm_num) (by simp)).2.2.2.1⟩

/-! ## C3, C5, C10: response decoding and the two variants -/

/-- A client whose evaluation always replies the allow triple `(1, "1", 1)`. -/
def allowClient : Client :=
  { eval := fun _ _ _ => .ok (.arr [.int 1, .str "1", .int 1]), evalsha := none }

/-- A client whose evaluation always replies `(2, "1", 1)` — an allow flag
outside `{0, 1}`. -/
def allow2Client : Client :=
  { eval := fun _ _ _ => .ok (.arr [.int 2, .str "1", .int 1]), evalsha := none }

/-- A client whose evaluation always replies an empty array — a malformed
response shape. -/
def badShapeClient : Client :=
  { eval := fun _ _ _ => .ok (.arr []), evalsha := none }

/-- A concrete stand-in for `strconv.ParseFloat` recognising only `"1"`. -/
def parse1 : String → Option ℚ := fun s => if s = "1" then some 1 else none

theorem validateWith_cases (msg : String) (parse : String → Option ℚ) (raw : RVal) :
    (∃ a s i v, raw = .arr [.int a, .str s, .int i] ∧ parse s = some v ∧
      validateWith msg parse raw = .ok (a, v, i)) ∨
    ((¬∃ a s i v, raw = .arr [.int a, .str s, .int i] ∧ parse s = some v) ∧
      validateWith msg parse raw = .error msg) := by
  unfold validateWith
  split
  next a s i =>
    cases hp : parse s with
    | some v => exact Or.inl ⟨a, s, i, v, rfl, hp, rfl⟩
    | none =>
      refine Or.inr ⟨?_, rfl⟩
      rintro ⟨a', s', i', v', heq, hp'⟩
      injection heq with harr
      injection harr with h1 h2
      injection h2 with h3 h4
      injection h3 with hs
      rw [← hs] at hp'
      rw [hp] at hp'
      cases hp'
  next h =>
    refine Or.inr ⟨?_, rfl⟩
    rintro ⟨a', s', i', v', heq, hp'⟩
    exact h a' s' i' heq

theorem validate_ok_iff (parse : String → Option ℚ) (raw : RVal) (x : ℤ × ℚ × ℤ) :
    F.validate parse raw = .ok x ↔ S.validate parse raw = .ok x := by
  unfold F.validate S.validate validateWith
  split
  next a s i =>
    cases parse s with
    | some v => exact Iff.rfl
    | none => simp
  next => simp

/-- C3: `Test` invokes the evaluator with the single key `prefix + key` and
the argument vector `[cost, flow_1, burst_1, …]`; an allow response
`(1, v, i)` decodes to `Result{Allow: true, Free: v}`; a denial response
`(0, v, i)` with a valid 1-based tier ordinal `i` decodes to
`Result{Allow: false, Wait: (cost / flow_i) * backoff(v / cost)}` seconds,
with `flow_i` looked up from the frozen argument template
(`args[2*index-1]` over `args = cost :: template`).  Both variants. -/
theorem test_decoding (l : Limiter) (parse : String → Option ℚ) (key : String) (cost : ℚ) :
    (∀ e, exec l.redis [l.keyPrefix ++ key] (cost :: l.args) = .error e →
      F.Test l parse key cost = .err e ∧ S.Test l parse key cost = .err e) ∧
    (∀ raw v i, exec l.redis [l.keyPrefix ++ key] (cost :: l.args) = .ok raw →
      F.validate parse raw = .ok (1, v, i) →
      F.Test l parse key cost = .ok ⟨true, v, 0⟩ ∧
      S.Test l parse key cost = .ok ⟨true, v, 0⟩) ∧
    (∀ raw v i flow, exec l.redis [l.keyPrefix ++ key] (cost :: l.args) = .ok raw →
      F.validate parse raw = .ok (0, v, i) →
      1 ≤ i →
      (cost :: l.args).get? (2 * i - 1).toNat = some flow →
      F.Test l parse key cost = .ok ⟨false, 0, (cost / flow) * l.backoff (v / cost)⟩ ∧
      S.Test l parse key cost = .ok ⟨false, 0, (cost / flow) * l.backoff (v / cost)⟩) := by
  refine ⟨?_, ?_, ?_⟩
  · intro e hexec
    constructor <;> simp only [F.Test, S.Test, hexec]
  · intro raw v i hexec hval
    have hvalS := (validate_ok_iff parse raw _).mp hval
    constructor
    · simp only [F.Test, hexec, hval]
      simp
    · simp only [S.Test, hexec, hvalS]
      simp
  · intro raw v i flow hexec hval hi hget
    have hvalS := (validate_ok_iff parse raw _).mp hval
    have hj : (0 : ℤ) ≤ 2 * i - 1 := by omega
    constructor
    · simp only [F.Test, hexec, hval]
      simp only [show ((0 : ℤ) = 1) = False by simp, if_false, if_pos hj, hget]
    · simp only [S.Test, hexec, hvalS]
      simp only [show ((0 : ℤ) = 1) = False by simp, if_false, if_pos hj, hget]

/-- Witness for C3: a limiter with one tier `(0.5, 9)` and a client whose
reply is the allow triple `(1, "1", 1)` decodes to an allow result with
`Free = 1`. -/
theorem test_decoding_witness :
    F.Test ⟨[1/2, 9], allowClient, "", Linear 2⟩ parse1 "k" 1 = .ok ⟨true, 1, 0⟩ ∧
    S.Test ⟨[1/2, 9], allowClient, "", Linear 2⟩ parse1 "k" 1 = .ok ⟨true, 1, 0⟩ :=
  (test_decoding ⟨[1/2, 9], allowClient, "", Linear 2⟩ parse1 "k" 1).2.1
    (.arr [.int 1, .str "1", .int 1]) 1 1 rfl
    (by simp [F.validate, validateWith, parse1])

/-- C5 counterexample: a response whose allow flag is `2` — outside the
`{0, 1}` shape required by the claim — is not surfaced as a protocol error:
`Test` decodes it as a denial `Result` (with wait `4` here). -/
theorem validate_shape_counterexample :
    S.Test ⟨[1/2, 9], allow2Client, "", Linear 2⟩ parse1 "k" 1 = .ok ⟨false, 0, 4⟩ ∧
    ∀ e, S.Test ⟨[1/2, 9], allow2Client, "", Linear 2⟩ parse1 "k" 1 ≠ .err e := by
  have h : S.Test ⟨[1/2, 9], allow2Client, "", Linear 2⟩ parse1 "k" 1 = .ok ⟨false, 0, 4⟩ := by
    simp only [S.Test, S.validate, validateWith, exec, allow2Client, parse1]
    norm_num [Linear]
  refine ⟨h, fun e hc => ?_⟩
  rw [h] at hc
  cases hc

/-- C5 (amended): `validate` rejects exactly the responses that are not a
3-element array of (int64, float-parseable string, int64); this is the
entire shape check — the allow flag is not constrained to `{0, 1}` (any
value other than `1` decodes as a denial), and the index is not
range-checked (an out-of-range index on denial is a runtime panic, not an
error); a shape-rejected response is never decoded into a `Result`: `Test`
surfaces the decode error.  Both variants. -/
theorem validate_shape_amended (parse : String → Option ℚ) (raw : RVal) :
    ((∃ e, S.validate parse raw = .error e) ↔
      ¬∃ a s i v, raw = .arr [.int a, .str s, .int i] ∧ parse s = some v) ∧
    ((∃ e, F.validate parse raw = .error e) ↔
      ¬∃ a s i v, raw = .arr [.int a, .str s, .int i] ∧ parse s = some v) ∧
    (∀ (l : Limiter) (key : String) (cost : ℚ) (e : String),
      exec l.redis [l.keyPrefix ++ key] (cost :: l.args) = .ok raw →
      S.validate parse raw = .error e → S.Test l parse key cost = .err e) ∧
    (∀ (l : Limiter) (key : String) (cost : ℚ) (e : String),
      exec l.redis [l.keyPrefix ++ key] (cost :: l.args) = .ok raw →
      F.validate parse raw = .error e → F.Test l parse key cost = .err e) := by
  refine ⟨?_, ?_, ?_, ?_⟩
  · rcases validateWith_cases "invalid type returned from eval" parse raw with
      ⟨a, s, i, v, he, hp, hok⟩ | ⟨hn, herr⟩
    · have : S.validate parse raw = .ok (a, v, i) := hok
      rw [this]
      simp only [reduceCtorEq, exists_false, false_iff, not_not]
      exact ⟨a, s, i, v, he, hp⟩
    · have : S.validate parse raw = .error "invalid type returned from eval" := herr
      rw [this]
      simp only [Except.error.injEq, exists_eq', true_iff]
      exact hn
  · rcases validateWith_cases "limiter: invalid type returned from eval" parse raw with
      ⟨a, s, i, v, he, hp, hok⟩ | ⟨hn, herr⟩
    · have : F.validate parse raw = .ok (a, v, i) := hok
      rw [this]
      simp only [reduceCtorEq, exists_false, false_iff, not_not]
      exact ⟨a, s, i, v, he, hp⟩
    · have : F.validate parse raw = .error "limiter: invalid type returned from eval" := herr
      rw [this]
      simp only [Except.error.injEq, exists_eq', true_iff]
      exact hn
  · intro l key cost e hexec hval
    simp only [S.Test, hexec, hval]
  · intro l key cost e hexec hval
    simp only [F.Test, hexec, hval]

/-- Witness for C5: the malformed empty-array response produces the decode
error from `Test`. -/
theorem validate_shape_amended_witness :
    S.Test ⟨[1/2, 9], badShapeClient, "", Linear 2⟩ parse1 "k" 1 =
      .err "invalid type returned from eval" :=
  (validate_shape_amended parse1 (.arr [])).2.2.1
    ⟨[1/2, 9], badShapeClient, "", Linear 2⟩ "k" 1 _ rfl rfl

end GoRedisBucket
